import Mathlib

/-!
# Verification of `script/merge-histories.js`

Shallow embedding of the history-merging tool. The script merges two JSON
logs (a commit-history log and a TDD event log) from a source branch into a
target branch's copies: placeholder (`"HEAD"`) resolution, deduplication by a
derived identity, chronological sort, write-back.

Modelling conventions:
* A JS value that may be `undefined` is an `Option`.
* JS string truthiness (`undefined` and `""` are falsy) is `jsTruthyStr`.
* `execSync("git rev-parse …")` is a parameter `resolve : Option String`:
  `some sha` models success (trimmed output), `none` models a thrown error.
* `new Date(s)` is a parameter `pd : String → Int` (a date string parsed to a
  numeric instant); the sort comparator subtracts these values.
* JS `Array.prototype.sort` with a consistent comparator is required to be a
  stable sort, which is unique, so it is modelled by `List.insertionSort`.
  When the comparator would throw (a commit record without a `commit` field,
  reading `a.commit.date` of `undefined`), the sort is modelled as `.error`;
  the comparator is only invoked on arrays of length ≥ 2.
* Timestamps of TDD entries are modelled as `Int` (the script only reads and
  compares them numerically).
-/

/-- JS truthiness of a possibly-absent string: `undefined` and `""` are falsy. -/
def jsTruthyStr : Option String → Bool
  | none => false
  | some s => !(s = "")

/-- `beginsWith sep l` is true when `sep` is an initial segment of `l`. -/
def beginsWith : List Char → List Char → Bool
  | [], _ => true
  | _ :: _, [] => false
  | a :: as, b :: bs => a = b && beginsWith as bs

/-- Characters of `l` before the first occurrence of the (nonempty) separator
`sep`; the whole list when `sep` does not occur.  Models `s.split(sep)[0]`. -/
def splitHead (sep : List Char) : List Char → List Char
  | [] => []
  | c :: rest =>
    if beginsWith sep (c :: rest) then []
    else c :: splitHead sep rest

/-- `url.split('/commit/')[0]` from line 60 of the script. -/
def urlBase (url : String) : String :=
  String.mk (splitHead "/commit/".toList url.toList)

/-- Interpolation of a possibly-absent number into a template string. -/
def showOptInt : Option Int → String
  | none => "undefined"
  | some n => toString n

/-- Interpolation of a possibly-absent string into a template string. -/
def showOptStr : Option String → String
  | none => "undefined"
  | some s => s

/-- The nested `commit` object of a commit record: `date` (ISO string, used
for ordering) and optional `url`. -/
structure CommitInner where
  date : String
  url : Option String
deriving DecidableEq, Repr

/-- A commit-history record: optional `sha` (may be the placeholder `"HEAD"`)
and optional nested `commit` object. -/
structure CommitRecord where
  sha : Option String
  commit : Option CommitInner
deriving DecidableEq, Repr

/-- A TDD-log entry: optional `commitId` (may be `"HEAD"`), optional numeric
`timestamp` and `commitTimestamp`, optional `testId`. -/
structure TddEntry where
  commitId : Option String
  timestamp : Option Int
  commitTimestamp : Option Int
  testId : Option String
deriving DecidableEq, Repr

/-! ## Commit-history merge (script lines 53–80) -/

/-- Lines 59–62: when the head commit's `url` is truthy, rewrite it to
`url.split('/commit/')[0] + '/commit/' + realSha`; otherwise leave it. -/
def rewrittenUrl (u : Option String) (realSha : String) : Option String :=
  if jsTruthyStr u then some (urlBase (u.getD "") ++ "/commit/" ++ realSha)
  else u

/-- Lines 53–67: find the first record with `sha === 'HEAD'`; on resolution
success overwrite its `sha` (and rewrite a truthy `commit.url`, see
`rewrittenUrl`); on resolution failure splice that record out and report the
error.  When the record has no `commit` object, line 59
(`headCommit.commit.url`) throws inside the `try`, so the `catch` also
splices the record out and reports.  Returns the updated array and whether an
error was reported. -/
def resolveHeadCommits (resolve : Option String) (sourceCommits : List CommitRecord) :
    List CommitRecord × Bool :=
  match sourceCommits.findIdx? (fun c => c.sha = some "HEAD") with
  | none => (sourceCommits, false)
  | some headIndex =>
    match resolve with
    | none => (sourceCommits.eraseIdx headIndex, true)
    | some realSha =>
      match sourceCommits.get? headIndex with
      | none => (sourceCommits, false)
      | some headCommit =>
        match headCommit.commit with
        | none => (sourceCommits.eraseIdx headIndex, true)
        | some ci =>
          (sourceCommits.set headIndex
            { sha := some realSha,
              commit := some { date := ci.date, url := rewrittenUrl ci.url realSha } }, false)

/-- The dedup guard of line 72: `sourceCommit.sha && !targetCommitShas.has(sourceCommit.sha)`.
The `Set` is built once from the target (line 69) and never updated. -/
def commitAppendGuard (targetCommitShas : List (Option String)) (c : CommitRecord) : Bool :=
  jsTruthyStr c.sha && !(targetCommitShas.contains c.sha)

/-- Lines 69–76: push each source commit onto the target array iff its `sha`
is truthy and not in the `Set` of the target's original `sha` values; count
the appended records. -/
def dedupCommits (sourceCommits targetCommits : List CommitRecord) :
    List CommitRecord × Nat :=
  let targetCommitShas : List (Option String) := targetCommits.map (fun c => c.sha)
  sourceCommits.foldl
    (fun acc sourceCommit =>
      if commitAppendGuard targetCommitShas sourceCommit then
        (acc.1 ++ [sourceCommit], acc.2 + 1)
      else acc)
    (targetCommits, 0)

/-- The numeric sort key of a commit record under date parser `pd`
(`new Date(c.commit.date)`); only meaningful when `commit` is present. -/
def commitKey (pd : String → Int) (c : CommitRecord) : Int :=
  pd ((c.commit.map CommitInner.date).getD "")

/-- The comparator order of line 78: nondecreasing parsed `commit.date`. -/
def commitLe (pd : String → Int) (a b : CommitRecord) : Prop :=
  commitKey pd a ≤ commitKey pd b

instance (pd : String → Int) : DecidableRel (commitLe pd) :=
  fun a b => inferInstanceAs (Decidable (commitKey pd a ≤ commitKey pd b))

instance (pd : String → Int) : IsTotal CommitRecord (commitLe pd) :=
  ⟨fun a b => Int.le_total (commitKey pd a) (commitKey pd b)⟩

instance (pd : String → Int) : IsTrans CommitRecord (commitLe pd) :=
  ⟨fun _ _ _ hab hbc => Int.le_trans hab hbc⟩

/-- Line 78: `targetCommits.sort((a, b) => new Date(a.commit.date) - new Date(b.commit.date))`.
On an array of length ≥ 2 the comparator is invoked and reads `a.commit.date`,
throwing when some record lacks `commit`; otherwise the stable sort by the
parsed dates. -/
def sortCommits (pd : String → Int) (l : List CommitRecord) :
    Except Unit (List CommitRecord) :=
  if l.length ≤ 1 then .ok l
  else if l.all (fun c => c.commit.isSome) then
    .ok (l.insertionSort (commitLe pd))
  else .error ()

/-- Result of the commit-history merge: the array passed to `writeJsonFile`,
the `newCommits` counter, and whether a resolution error was reported. -/
structure CommitMergeResult where
  merged : List CommitRecord
  newCount : Nat
  reportedError : Bool
deriving DecidableEq, Repr

/-- Lines 53–80: the whole commit-history merge on in-memory arrays
(placeholder resolution, dedup union, chronological sort).  `.error` models
an exception escaping the merge (the sort comparator throwing). -/
def commitMergePhase (pd : String → Int) (resolve : Option String)
    (sourceCommits targetCommits : List CommitRecord) :
    Except Unit CommitMergeResult :=
  let resolved := resolveHeadCommits resolve sourceCommits
  let deduped := dedupCommits resolved.1 targetCommits
  match sortCommits pd deduped.1 with
  | .error e => .error e
  | .ok sorted => .ok ⟨sorted, deduped.2, resolved.2⟩

/-! ## TDD-log merge (script lines 89–112) -/

/-- Lines 89–98: find the first entry with `commitId === 'HEAD'`; on success
overwrite its `commitId`, on failure splice it out and report. -/
def resolveHeadTdd (resolve : Option String) (sourceTddLog : List TddEntry) :
    List TddEntry × Bool :=
  match sourceTddLog.findIdx? (fun e => e.commitId = some "HEAD") with
  | none => (sourceTddLog, false)
  | some tddHeadIndex =>
    match resolve with
    | none => (sourceTddLog.eraseIdx tddHeadIndex, true)
    | some realSha =>
      match sourceTddLog.get? tddHeadIndex with
      | none => (sourceTddLog, false)
      | some e =>
        (sourceTddLog.set tddHeadIndex
          { e with commitId := some realSha }, false)

/-- Lines 100 and 103: `e.commitId ? e.commitId : `${e.timestamp}-${e.testId}``. -/
def tddUniqueId (e : TddEntry) : String :=
  if jsTruthyStr e.commitId then e.commitId.getD ""
  else showOptInt e.timestamp ++ "-" ++ showOptStr e.testId

/-- Lines 100–108: push each source entry onto the target array iff its
unique id is not in the `Set` of the target's original unique ids (the `Set`
is never updated); count the appended entries. -/
def dedupTdd (sourceTddLog targetTddLog : List TddEntry) : List TddEntry × Nat :=
  let targetTddEntries : List String := targetTddLog.map tddUniqueId
  sourceTddLog.foldl
    (fun acc sourceEntry =>
      if !(targetTddEntries.contains (tddUniqueId sourceEntry)) then
        (acc.1 ++ [sourceEntry], acc.2 + 1)
      else acc)
    (targetTddLog, 0)

/-- The comparator value `a.commitTimestamp || a.timestamp` from line 110:
`commitTimestamp` when truthy (present and nonzero), else `timestamp`; `none`
models the value being `undefined` (so the subtraction in the comparator
would be `NaN`). -/
def tddSortVal (e : TddEntry) : Option Int :=
  match e.commitTimestamp with
  | some t => if t = 0 then e.timestamp else some t
  | none => e.timestamp

/-- The comparator order of line 110 on entries with numeric values. -/
def tddLe (a b : TddEntry) : Prop :=
  (tddSortVal a).getD 0 ≤ (tddSortVal b).getD 0

instance : DecidableRel tddLe :=
  fun a b => inferInstanceAs (Decidable ((tddSortVal a).getD 0 ≤ (tddSortVal b).getD 0))

instance : IsTotal TddEntry tddLe :=
  ⟨fun a b => Int.le_total ((tddSortVal a).getD 0) ((tddSortVal b).getD 0)⟩

instance : IsTrans TddEntry tddLe :=
  ⟨fun _ _ _ hab hbc => Int.le_trans hab hbc⟩

/-- Line 110: `targetTddLog.sort((a, b) => (a.commitTimestamp || a.timestamp) - (b.commitTimestamp || b.timestamp))`.
With every comparator value a number this is the stable sort by that value;
with any `NaN` the comparator is inconsistent and ECMAScript leaves the order
implementation-defined (still a permutation, no throw), modelled here as the
array unchanged. -/
def sortTdd (l : List TddEntry) : List TddEntry :=
  if l.all (fun e => (tddSortVal e).isSome) then
    l.insertionSort tddLe
  else l

/-- Result of the TDD-log merge: the array passed to `writeJsonFile`, the
`newTddEntries` counter, and whether a resolution error was reported. -/
structure TddMergeResult where
  merged : List TddEntry
  newCount : Nat
  reportedError : Bool
deriving DecidableEq, Repr

/-- Lines 89–112: the whole TDD-log merge on in-memory arrays. -/
def tddMergePhase (resolve : Option String)
    (sourceTddLog targetTddLog : List TddEntry) : TddMergeResult :=
  let resolved := resolveHeadTdd resolve sourceTddLog
  let deduped := dedupTdd resolved.1 targetTddLog
  ⟨sortTdd deduped.1, deduped.2, resolved.2⟩

/-! ## The whole `mergeHistories` run (lines 38–121) -/

/-- What actually executed in one `mergeHistories` call: `none` for a phase
whose result was never produced (it threw, or was never reached). -/
structure RunOutcome where
  commitResult : Option CommitMergeResult
  tddResult : Option TddMergeResult
deriving DecidableEq, Repr

/-- Lines 38–121: the commit-history merge runs first; it is not wrapped in
any `try`, so an exception thrown inside it propagates out of
`mergeHistories` and the TDD-log merge never runs.  `resolveC` and `resolveT`
are the two independent `git rev-parse` invocations. -/
def mergeHistoriesRun (pd : String → Int) (resolveC resolveT : Option String)
    (sourceCommits targetCommits : List CommitRecord)
    (sourceTddLog targetTddLog : List TddEntry) : RunOutcome :=
  match commitMergePhase pd resolveC sourceCommits targetCommits with
  | .error _ => ⟨none, none⟩
  | .ok c => ⟨some c, some (tddMergePhase resolveT sourceTddLog targetTddLog)⟩

/-- Modelled from the spec (§4.4 step 4, for claim C4): the spec's ordering
key for TDD entries, "`commitTimestamp` if present else `timestamp`" —
presence, not truthiness. -/
def specTddOrderKey (e : TddEntry) : Option Int :=
  match e.commitTimestamp with
  | some t => some t
  | none => e.timestamp

/-- The derived identities of a commit array: its truthy `sha` values, in
order (identity-less records contribute nothing, cf. line 72). -/
def commitIds (l : List CommitRecord) : List String :=
  l.filterMap (fun c => if jsTruthyStr c.sha then c.sha else none)

/-- The derived identities of a TDD array: every entry has one (line 103). -/
def tddIds (l : List TddEntry) : List String :=
  l.map tddUniqueId

/-! ## Helper lemmas: the dedup loops -/

/-- Both dedup loops (lines 71–76 and 102–108) are an append-and-count fold;
since the membership `Set` is built once and never updated, the loop is a
plain filter against the original target identities. -/
theorem appendLoop_eq {α : Type} (p : α → Bool) (l : List α) :
    ∀ (acc : List α) (n : Nat),
      l.foldl (fun acc x => if p x then (acc.1 ++ [x], acc.2 + 1) else acc) (acc, n)
        = (acc ++ l.filter p, n + (l.filter p).length) := by
  induction l with
  | nil => intro acc n; simp
  | cons x xs ih =>
    intro acc n
    by_cases h : p x
    · simp only [List.foldl_cons, h, if_pos, List.filter_cons_of_pos h, ih,
        List.append_assoc, List.singleton_append, List.length_cons, Prod.mk.injEq]
      exact ⟨by simp, by omega⟩
    · simp only [List.foldl_cons, h, if_neg, List.filter_cons_of_neg h, ih, Prod.mk.injEq]
      exact ⟨rfl, rfl⟩

/-- Closed form of the commit dedup: target, then the source records whose
`sha` is truthy and not among the target's original `sha` values. -/
theorem dedupCommits_eq (s t : List CommitRecord) :
    dedupCommits s t =
      (t ++ s.filter (commitAppendGuard (t.map (fun c => c.sha))),
        (s.filter (commitAppendGuard (t.map (fun c => c.sha)))).length) := by
  unfold dedupCommits
  rw [appendLoop_eq]
  simp

/-- Closed form of the TDD dedup: target, then the source entries whose
unique id is not among the target's original unique ids. -/
theorem dedupTdd_eq (s t : List TddEntry) :
    dedupTdd s t =
      (t ++ s.filter (fun e => !((t.map tddUniqueId).contains (tddUniqueId e))),
        (s.filter (fun e => !((t.map tddUniqueId).contains (tddUniqueId e)))).length) := by
  unfold dedupTdd
  rw [appendLoop_eq]
  simp

/-! ## Helper lemmas: the sorts -/

theorem sortCommits_ok_perm {pd : String → Int} {l m : List CommitRecord}
    (h : sortCommits pd l = .ok m) : m.Perm l := by
  unfold sortCommits at h
  split at h
  · injection h with h'; subst h'; exact List.Perm.refl _
  · split at h
    · injection h with h'; subst h'; exact List.perm_insertionSort _ _
    · exact Except.noConfusion h

theorem sortCommits_ok_sorted {pd : String → Int} {l m : List CommitRecord}
    (h : sortCommits pd l = .ok m) : List.Pairwise (commitLe pd) m := by
  unfold sortCommits at h
  split at h
  case isTrue hlen =>
    injection h with h'; subst h'
    match l, hlen with
    | [], _ => exact List.Pairwise.nil
    | [x], _ => exact List.pairwise_singleton _ _
  case isFalse =>
    split at h
    · injection h with h'; subst h'
      exact List.sorted_insertionSort (commitLe pd) l
    · exact Except.noConfusion h

theorem sortCommits_eq_ok {pd : String → Int} {l : List CommitRecord}
    (h : l.all (fun c => c.commit.isSome) = true) :
    sortCommits pd l = .ok (l.insertionSort (commitLe pd)) := by
  unfold sortCommits
  by_cases hlen : l.length ≤ 1
  · rw [if_pos hlen]
    match l, hlen with
    | [], _ => rfl
    | [x], _ => rfl
  · rw [if_neg hlen, if_pos h]

theorem sortTdd_perm (l : List TddEntry) : (sortTdd l).Perm l := by
  unfold sortTdd
  split
  · exact List.perm_insertionSort _ _
  · exact List.Perm.refl _

theorem sortTdd_eq_of_all {l : List TddEntry}
    (h : l.all (fun e => (tddSortVal e).isSome) = true) :
    sortTdd l = l.insertionSort tddLe := by
  unfold sortTdd
  rw [if_pos h]

theorem sortTdd_sorted_of_all {l : List TddEntry}
    (h : l.all (fun e => (tddSortVal e).isSome) = true) :
    List.Pairwise tddLe (sortTdd l) := by
  rw [sortTdd_eq_of_all h]
  exact List.sorted_insertionSort tddLe l

/-! ## Helper lemmas: positional facts about the placeholder scan -/

theorem findIdx?_first_match {α : Type} (p : α → Bool) (pre : List α) (r : α)
    (post : List α) (hpre : ∀ c ∈ pre, p c = false) (hr : p r = true) :
    (pre ++ r :: post).findIdx? p = some pre.length := by
  rw [List.findIdx?_append, List.findIdx?_eq_none_iff.mpr hpre]
  simp [List.findIdx?_cons, hr]

theorem eraseIdx_at_middle {α : Type} (pre : List α) (r : α) (post : List α) :
    (pre ++ r :: post).eraseIdx pre.length = pre ++ post := by
  rw [List.eraseIdx_append_of_length_le (Nat.le_refl _)]
  simp

theorem set_at_middle {α : Type} (pre : List α) (r r' : α) (post : List α) :
    (pre ++ r :: post).set pre.length r' = pre ++ r' :: post := by
  rw [List.set_append_right _ _ (Nat.le_refl _)]
  simp

theorem get?_at_middle {α : Type} (pre : List α) (r : α) (post : List α) :
    (pre ++ r :: post).get? pre.length = some r := by
  rw [List.get?_eq_getElem?, List.getElem?_append_right (Nat.le_refl _)]
  simp

/-! ## Helper lemmas: the placeholder-resolution step -/

/-- With no placeholder record present, the resolution step is the identity
and reports nothing. -/
theorem resolveHeadCommits_no_head {resolve : Option String} {s : List CommitRecord}
    (h : ∀ c ∈ s, c.sha ≠ some "HEAD") :
    resolveHeadCommits resolve s = (s, false) := by
  unfold resolveHeadCommits
  rw [List.findIdx?_eq_none_iff.mpr (fun c hc => decide_eq_false (h c hc))]

/-- On resolution failure the first placeholder record is spliced out and the
failure reported; records after it are untouched. -/
theorem resolveHeadCommits_fail {pre post : List CommitRecord} {r : CommitRecord}
    (hpre : ∀ c ∈ pre, c.sha ≠ some "HEAD") (hr : r.sha = some "HEAD") :
    resolveHeadCommits none (pre ++ r :: post) = (pre ++ post, true) := by
  unfold resolveHeadCommits
  rw [findIdx?_first_match _ _ _ _ (fun c hc => decide_eq_false (hpre c hc))
    (decide_eq_true hr)]
  show ((pre ++ r :: post).eraseIdx pre.length, true) = (pre ++ post, true)
  rw [eraseIdx_at_middle]

/-- On resolution success the first placeholder record (carrying a `commit`
object) has its `sha` overwritten and its truthy `url` rewritten; records
after it are untouched and nothing is reported. -/
theorem resolveHeadCommits_success {pre post : List CommitRecord} {r : CommitRecord}
    {ci : CommitInner} {realSha : String}
    (hpre : ∀ c ∈ pre, c.sha ≠ some "HEAD") (hr : r.sha = some "HEAD")
    (hc : r.commit = some ci) :
    resolveHeadCommits (some realSha) (pre ++ r :: post) =
      (pre ++
        { sha := some realSha,
          commit := some { date := ci.date, url := rewrittenUrl ci.url realSha } }
        :: post, false) := by
  unfold resolveHeadCommits
  rw [findIdx?_first_match _ _ _ _ (fun c hc' => decide_eq_false (hpre c hc'))
    (decide_eq_true hr)]
  dsimp only
  rw [get?_at_middle]
  dsimp only
  rw [hc]
  dsimp only
  rw [set_at_middle]

theorem resolveHeadTdd_no_head {resolve : Option String} {s : List TddEntry}
    (h : ∀ e ∈ s, e.commitId ≠ some "HEAD") :
    resolveHeadTdd resolve s = (s, false) := by
  unfold resolveHeadTdd
  rw [List.findIdx?_eq_none_iff.mpr (fun e he => decide_eq_false (h e he))]

theorem resolveHeadTdd_fail {pre post : List TddEntry} {e : TddEntry}
    (hpre : ∀ x ∈ pre, x.commitId ≠ some "HEAD") (he : e.commitId = some "HEAD") :
    resolveHeadTdd none (pre ++ e :: post) = (pre ++ post, true) := by
  unfold resolveHeadTdd
  rw [findIdx?_first_match _ _ _ _ (fun x hx => decide_eq_false (hpre x hx))
    (decide_eq_true he)]
  show ((pre ++ e :: post).eraseIdx pre.length, true) = (pre ++ post, true)
  rw [eraseIdx_at_middle]

theorem resolveHeadTdd_success {pre post : List TddEntry} {e : TddEntry} {realSha : String}
    (hpre : ∀ x ∈ pre, x.commitId ≠ some "HEAD") (he : e.commitId = some "HEAD") :
    resolveHeadTdd (some realSha) (pre ++ e :: post) =
      (pre ++ { e with commitId := some realSha } :: post, false) := by
  unfold resolveHeadTdd
  rw [findIdx?_first_match _ _ _ _ (fun x hx => decide_eq_false (hpre x hx))
    (decide_eq_true he)]
  dsimp only
  rw [get?_at_middle]
  dsimp only
  rw [set_at_middle]

/-! ## Helper lemmas: field preservation through resolution -/

/-- Resolution never removes the `commit` object from any record that stays:
records are only dropped, kept, or rewritten with a present `commit`. -/
theorem resolveHeadCommits_all_some {resolve : Option String} {s : List CommitRecord}
    (h : s.all (fun c => c.commit.isSome) = true) :
    (resolveHeadCommits resolve s).1.all (fun c => c.commit.isSome) = true := by
  unfold resolveHeadCommits
  cases hf : s.findIdx? (fun c => c.sha = some "HEAD") with
  | none => exact h
  | some i =>
    dsimp only
    cases resolve with
    | none =>
      rw [List.all_eq_true] at h ⊢
      exact fun c hc => h c (List.Sublist.mem hc (List.eraseIdx_sublist s i))
    | some realSha =>
      dsimp only
      cases hg : s.get? i with
      | none => exact h
      | some headCommit =>
        dsimp only
        cases hcc : headCommit.commit with
        | none =>
          rw [List.all_eq_true] at h ⊢
          exact fun c hc => h c (List.Sublist.mem hc (List.eraseIdx_sublist s i))
        | some ci =>
          rw [List.all_eq_true] at h ⊢
          intro c hc
          rcases List.mem_or_eq_of_mem_set hc with h1 | h2
          · exact h c h1
          · subst h2; rfl

/-- Resolution only touches `commitId`, never the timestamps, so every entry
of the resolved array still has a numeric comparator value when all input
entries do. -/
theorem resolveHeadTdd_sortVal_all {resolve : Option String} {s : List TddEntry}
    (h : s.all (fun e => (tddSortVal e).isSome) = true) :
    (resolveHeadTdd resolve s).1.all (fun e => (tddSortVal e).isSome) = true := by
  unfold resolveHeadTdd
  cases hf : s.findIdx? (fun e => e.commitId = some "HEAD") with
  | none => exact h
  | some i =>
    dsimp only
    cases resolve with
    | none =>
      rw [List.all_eq_true] at h ⊢
      exact fun e he => h e (List.Sublist.mem he (List.eraseIdx_sublist s i))
    | some realSha =>
      dsimp only
      cases hg : s.get? i with
      | none => exact h
      | some e0 =>
        dsimp only
        rw [List.all_eq_true] at h ⊢
        intro e he
        rcases List.mem_or_eq_of_mem_set he with h1 | h2
        · exact h e h1
        · subst h2
          exact h e0 (List.get?_mem hg)

/-! ## Helper lemmas: whole phases -/

/-- Closed form of the TDD merge: the sorted target-plus-new-entries array,
the count of appended entries, and the resolution report flag. -/
theorem tddMergePhase_eq (resolve : Option String) (s t : List TddEntry) :
    tddMergePhase resolve s t =
      ⟨sortTdd (t ++ (resolveHeadTdd resolve s).1.filter
          (fun e => !((t.map tddUniqueId).contains (tddUniqueId e)))),
        ((resolveHeadTdd resolve s).1.filter
          (fun e => !((t.map tddUniqueId).contains (tddUniqueId e)))).length,
        (resolveHeadTdd resolve s).2⟩ := by
  simp only [tddMergePhase, dedupTdd_eq]

theorem tddMergePhase_merged_perm (resolve : Option String) (s t : List TddEntry) :
    (tddMergePhase resolve s t).merged.Perm
      (t ++ (resolveHeadTdd resolve s).1.filter
        (fun e => !((t.map tddUniqueId).contains (tddUniqueId e)))) := by
  rw [tddMergePhase_eq]
  exact sortTdd_perm _

/-- A successful commit merge is a permutation of the target followed by the
filtered (resolved) source, is sorted, and carries the filter's count and the
resolution report flag. -/
theorem commitMergePhase_ok {pd : String → Int} {resolve : Option String}
    {s t : List CommitRecord} {res : CommitMergeResult}
    (h : commitMergePhase pd resolve s t = .ok res) :
    res.merged.Perm (t ++ (resolveHeadCommits resolve s).1.filter
        (commitAppendGuard (t.map (fun c => c.sha)))) ∧
      List.Pairwise (commitLe pd) res.merged ∧
      res.newCount = ((resolveHeadCommits resolve s).1.filter
        (commitAppendGuard (t.map (fun c => c.sha)))).length ∧
      res.reportedError = (resolveHeadCommits resolve s).2 := by
  unfold commitMergePhase at h
  simp only [dedupCommits_eq] at h
  cases hs : sortCommits pd
      (t ++ (resolveHeadCommits resolve s).1.filter
        (commitAppendGuard (t.map (fun c => c.sha)))) with
  | error e =>
    rw [hs] at h
    exact Except.noConfusion h
  | ok m =>
    rw [hs] at h
    injection h with h'
    subst h'
    exact ⟨sortCommits_ok_perm hs, sortCommits_ok_sorted hs, rfl, rfl⟩

theorem contains_iff {α : Type} [BEq α] [LawfulBEq α] {l : List α} {a : α} :
    l.contains a = true ↔ a ∈ l :=
  List.elem_iff

/-- Splitting the dedup guard of line 72 into its two conjuncts. -/
theorem commitAppendGuard_eq_true {shas : List (Option String)} {c : CommitRecord} :
    commitAppendGuard shas c = true ↔
      jsTruthyStr c.sha = true ∧ shas.contains c.sha = false := by
  unfold commitAppendGuard
  cases jsTruthyStr c.sha <;> cases shas.contains c.sha <;> simp

/-- When every commit record of the source and the target carries a `commit`
object, the commit merge cannot throw: it returns the sorted deduplicated
union. -/
theorem commitMergePhase_isOk {pd : String → Int} {resolve : Option String}
    {s t : List CommitRecord}
    (hs : s.all (fun c => c.commit.isSome) = true)
    (ht : t.all (fun c => c.commit.isSome) = true) :
    commitMergePhase pd resolve s t =
      .ok ⟨(t ++ (resolveHeadCommits resolve s).1.filter
              (commitAppendGuard (t.map (fun c => c.sha)))).insertionSort (commitLe pd),
        ((resolveHeadCommits resolve s).1.filter
          (commitAppendGuard (t.map (fun c => c.sha)))).length,
        (resolveHeadCommits resolve s).2⟩ := by
  have hall : (t ++ (resolveHeadCommits resolve s).1.filter
      (commitAppendGuard (t.map (fun c => c.sha)))).all (fun c => c.commit.isSome) = true := by
    rw [List.all_eq_true]
    intro c hc
    rcases List.mem_append.mp hc with h1 | h2
    · exact List.all_eq_true.mp ht c h1
    · exact List.all_eq_true.mp (resolveHeadCommits_all_some hs) c (List.mem_of_mem_filter h2)
  unfold commitMergePhase
  simp only [dedupCommits_eq]
  rw [sortCommits_eq_ok hall]

/-- When the commit merge completes, the TDD merge runs and its result is
recorded. -/
theorem mergeHistoriesRun_tdd {pd : String → Int} {resolveC resolveT : Option String}
    {sc tc : List CommitRecord} {st tt : List TddEntry} {res : CommitMergeResult}
    (h : commitMergePhase pd resolveC sc tc = .ok res) :
    mergeHistoriesRun pd resolveC resolveT sc tc st tt =
      ⟨some res, some (tddMergePhase resolveT st tt)⟩ := by
  unfold mergeHistoriesRun
  rw [h]

/-! ## Derived identities -/

theorem mem_commitIds {l : List CommitRecord} {a : String} :
    a ∈ commitIds l ↔ ∃ c ∈ l, jsTruthyStr c.sha = true ∧ c.sha = some a := by
  unfold commitIds
  rw [List.mem_filterMap]
  constructor
  · rintro ⟨c, hc, hsome⟩
    by_cases hg : jsTruthyStr c.sha = true
    · rw [if_pos hg] at hsome
      exact ⟨c, hc, hg, hsome⟩
    · rw [if_neg hg] at hsome
      exact Option.noConfusion hsome
  · rintro ⟨c, hc, hg, hsha⟩
    refine ⟨c, hc, ?_⟩
    rw [if_pos hg]
    exact hsha

/-- Deduplicating a source whose identities are distinct against a target
whose identities are distinct yields distinct identities (commit kind). -/
theorem nodup_commitIds_dedup {s t : List CommitRecord}
    (hns : (commitIds s).Nodup) (hnt : (commitIds t).Nodup) :
    (commitIds (t ++ s.filter (commitAppendGuard (t.map (fun c => c.sha))))).Nodup := by
  unfold commitIds
  rw [List.filterMap_append]
  refine List.Nodup.append hnt
    (List.Nodup.sublist (List.Sublist.filterMap _ (List.filter_sublist s)) hns) ?_
  intro a hat haf
  rw [show (List.filterMap (fun c => if jsTruthyStr c.sha then c.sha else none) t) =
    commitIds t from rfl, mem_commitIds] at hat
  rw [show ∀ u, (List.filterMap (fun c => if jsTruthyStr c.sha then c.sha else none) u) =
    commitIds u from fun _ => rfl, mem_commitIds] at haf
  obtain ⟨c, hcmem, hg, hsha⟩ := haf
  obtain ⟨c', hc't, hg', hsha'⟩ := hat
  have hguard := (List.mem_filter.mp hcmem).2
  rw [commitAppendGuard_eq_true] at hguard
  have hmem : c.sha ∈ t.map (fun c => c.sha) := by
    rw [hsha, ← hsha']
    exact List.mem_map_of_mem _ hc't
  rw [← contains_iff] at hmem
  rw [hguard.2] at hmem
  exact Bool.noConfusion hmem

/-- Deduplicating a source whose identities are distinct against a target
whose identities are distinct yields distinct identities (TDD kind). -/
theorem nodup_tddIds_dedup {s t : List TddEntry}
    (hns : (tddIds s).Nodup) (hnt : (tddIds t).Nodup) :
    (tddIds (t ++ s.filter
      (fun e => !((t.map tddUniqueId).contains (tddUniqueId e))))).Nodup := by
  unfold tddIds
  rw [List.map_append]
  refine List.Nodup.append hnt
    (List.Nodup.sublist (List.Sublist.map _ (List.filter_sublist s)) hns) ?_
  intro a hat haf
  rw [List.mem_map] at haf
  obtain ⟨e, hemem, hid⟩ := haf
  have hg := (List.mem_filter.mp hemem).2
  rw [Bool.not_eq_true'] at hg
  have hmem : (t.map tddUniqueId).contains (tddUniqueId e) = true := by
    rw [contains_iff, hid]
    exact hat
  rw [hg] at hmem
  exact Bool.noConfusion hmem

/-! ## Claims -/

/-- C3: for a source commit array with exactly one record whose `sha` is
`"HEAD"` (a data-model record, carrying a `commit` object), successful
resolution with identifier `realSha` overwrites that record's `sha` with
`realSha` and rewrites its (truthy) `commit.url` to the text before
`/commit/`, then `/commit/`, then `realSha`; and the spec's concrete example
`[{sha:"HEAD", date:"2024-01-02", url:"https://x/commit/abc"}]` with empty
target and resolved identifier `"deadbeef"` yields exactly the specified
output. -/
theorem claim_C3 (pd : String → Int) (pre post : List CommitRecord)
    (r : CommitRecord) (ci : CommitInner) (u realSha : String)
    (hpre : ∀ c ∈ pre, c.sha ≠ some "HEAD") (hpost : ∀ c ∈ post, c.sha ≠ some "HEAD")
    (hr : r.sha = some "HEAD") (hc : r.commit = some ci) (hu : ci.url = some u)
    (hne : u ≠ "") :
    resolveHeadCommits (some realSha) (pre ++ r :: post) =
      (pre ++
        (⟨some realSha,
          some ⟨ci.date, some (urlBase u ++ "/commit/" ++ realSha)⟩⟩ : CommitRecord)
        :: post, false) ∧
    commitMergePhase pd (some "deadbeef")
        [⟨some "HEAD", some ⟨"2024-01-02", some "https://x/commit/abc"⟩⟩] [] =
      .ok ⟨[⟨some "deadbeef", some ⟨"2024-01-02", some "https://x/commit/deadbeef"⟩⟩],
        1, false⟩ := by
  constructor
  · rw [resolveHeadCommits_success hpre hr hc]
    have hurl : rewrittenUrl ci.url realSha =
        some (urlBase u ++ "/commit/" ++ realSha) := by
      unfold rewrittenUrl
      rw [hu, if_pos (by simp [jsTruthyStr, hne])]
      rfl
    rw [hurl]
  · rfl

/-- Witness instantiating C3 at a concrete input. -/
theorem claim_C3_witness :
    resolveHeadCommits (some "r1")
        ([] ++ (⟨some "HEAD", some ⟨"d", some "https://y/commit/a"⟩⟩ : CommitRecord) :: []) =
      ([] ++
        (⟨some "r1",
          some ⟨"d", some (urlBase "https://y/commit/a" ++ "/commit/" ++ "r1")⟩⟩
          : CommitRecord) :: [], false) ∧
    commitMergePhase (fun _ => 0) (some "deadbeef")
        [⟨some "HEAD", some ⟨"2024-01-02", some "https://x/commit/abc"⟩⟩] [] =
      .ok ⟨[⟨some "deadbeef", some ⟨"2024-01-02", some "https://x/commit/deadbeef"⟩⟩],
        1, false⟩ :=
  claim_C3 (fun _ => 0) [] [] ⟨some "HEAD", some ⟨"d", some "https://y/commit/a"⟩⟩
    ⟨"d", some "https://y/commit/a"⟩ "https://y/commit/a" "r1"
    (by simp) (by simp) rfl rfl rfl (by decide)

/-- C7: a source commit record whose `sha` is absent or falsy is never
appended to the merged output, whatever the target array holds: if such a
record is not already a member of the target it does not occur in the merged
output. -/
theorem claim_C7 {pd : String → Int} {resolve : Option String}
    {s t : List CommitRecord} {res : CommitMergeResult} {c : CommitRecord}
    (hok : commitMergePhase pd resolve s t = .ok res)
    (hfalsy : jsTruthyStr c.sha = false) (hnt : c ∉ t) :
    c ∉ res.merged := by
  intro hmem
  have hperm := (commitMergePhase_ok hok).1
  rw [hperm.mem_iff, List.mem_append] at hmem
  rcases hmem with h1 | h2
  · exact hnt h1
  · have hg := (List.mem_filter.mp h2).2
    rw [commitAppendGuard_eq_true, hfalsy] at hg
    exact Bool.noConfusion hg.1

/-- Witness instantiating C7 at a concrete input. -/
theorem claim_C7_witness :
    commitMergePhase (fun _ => 0) none [⟨none, some ⟨"d", none⟩⟩] []
        = .ok ⟨[], 0, false⟩ ∧
      (⟨none, some ⟨"d", none⟩⟩ : CommitRecord) ∉
        (CommitMergeResult.mk [] 0 false).merged :=
  ⟨by rfl,
    @claim_C7 (fun _ => 0) none [⟨none, some ⟨"d", none⟩⟩] [] ⟨[], 0, false⟩
      ⟨none, some ⟨"d", none⟩⟩ (by rfl) (by rfl) (by simp)⟩

/-- C8: merging an empty source array into an already-sorted target leaves
the target unchanged — nothing is appended, the failure flag stays clear, and
the re-sort is a no-op (both record kinds). -/
theorem claim_C8 {pd : String → Int} {resolve resolveT : Option String}
    {t : List CommitRecord} {tt : List TddEntry}
    (ht : t.all (fun c => c.commit.isSome) = true)
    (hsorted : List.Pairwise (commitLe pd) t)
    (htt : tt.all (fun e => (tddSortVal e).isSome) = true)
    (hsortedT : List.Pairwise tddLe tt) :
    commitMergePhase pd resolve [] t = .ok ⟨t, 0, false⟩ ∧
    tddMergePhase resolveT [] tt = ⟨tt, 0, false⟩ := by
  constructor
  · rw [commitMergePhase_isOk (by rfl) ht,
      resolveHeadCommits_no_head (fun c hc => absurd hc (List.not_mem_nil c))]
    simp only [List.filter_nil, List.append_nil, List.length_nil]
    rw [List.Sorted.insertionSort_eq hsorted]
  · rw [tddMergePhase_eq,
      resolveHeadTdd_no_head (fun e he => absurd he (List.not_mem_nil e))]
    simp only [List.filter_nil, List.append_nil, List.length_nil]
    rw [sortTdd_eq_of_all htt, List.Sorted.insertionSort_eq hsortedT]

/-- Witness instantiating C8 at a concrete sorted input. -/
theorem claim_C8_witness :
    commitMergePhase (fun _ => 0) none [] [⟨some "a", some ⟨"d1", none⟩⟩]
        = .ok ⟨[⟨some "a", some ⟨"d1", none⟩⟩], 0, false⟩ ∧
      tddMergePhase none [] [⟨some "c1", some 1, none, none⟩]
        = ⟨[⟨some "c1", some 1, none, none⟩], 0, false⟩ :=
  @claim_C8 (fun _ => 0) none none [⟨some "a", some ⟨"d1", none⟩⟩]
    [⟨some "c1", some 1, none, none⟩] (by rfl) (by decide) (by rfl) (by decide)

/-- C10: a TDD entry is never skipped for lacking an identity: with a falsy
`commitId` its identity is the composite `timestamp`-`testId` string — in
particular `"undefined-undefined"` when both are absent — and it is appended
iff that composite identity is not already present among the target's
identities. -/
theorem claim_C10 {s t : List TddEntry} {e : TddEntry}
    (hfalsy : jsTruthyStr e.commitId = false) (hmem : e ∈ s) :
    tddUniqueId e = showOptInt e.timestamp ++ "-" ++ showOptStr e.testId ∧
    (e.timestamp = none → e.testId = none → tddUniqueId e = "undefined-undefined") ∧
    (tddUniqueId e ∉ t.map tddUniqueId → e ∈ (dedupTdd s t).1) ∧
    (e ∉ t → tddUniqueId e ∈ t.map tddUniqueId → e ∉ (dedupTdd s t).1) := by
  have hid : tddUniqueId e = showOptInt e.timestamp ++ "-" ++ showOptStr e.testId := by
    unfold tddUniqueId
    rw [if_neg (by simp [hfalsy])]
  refine ⟨hid, ?_, ?_, ?_⟩
  · intro h1 h2
    rw [hid, h1, h2]
    rfl
  · intro hnotin
    have hcf : (t.map tddUniqueId).contains (tddUniqueId e) = false := by
      rw [Bool.eq_false_iff]
      intro hct
      exact hnotin (contains_iff.mp hct)
    rw [dedupTdd_eq]
    refine List.mem_append.mpr (Or.inr (List.mem_filter.mpr ⟨hmem, ?_⟩))
    rw [hcf]
    rfl
  · intro hne hin hmemres
    rw [dedupTdd_eq] at hmemres
    rcases List.mem_append.mp hmemres with h1 | h2
    · exact hne h1
    · have hg := (List.mem_filter.mp h2).2
      rw [Bool.not_eq_true'] at hg
      rw [← contains_iff] at hin
      rw [hg] at hin
      exact Bool.noConfusion hin

/-- Witness instantiating C10 at a concrete entry with no identity fields. -/
theorem claim_C10_witness :
    tddUniqueId ⟨none, none, none, none⟩ =
        showOptInt none ++ "-" ++ showOptStr none ∧
      tddUniqueId (⟨none, none, none, none⟩ : TddEntry) = "undefined-undefined" ∧
      (⟨none, none, none, none⟩ : TddEntry) ∈
        (dedupTdd [⟨none, none, none, none⟩] []).1 :=
  let h := @claim_C10 [⟨none, none, none, none⟩] [] ⟨none, none, none, none⟩
    (by rfl) (by simp)
  ⟨h.1, h.2.1 rfl rfl, h.2.2.1 (by simp)⟩

/-- C9: when several records carry the `"HEAD"` placeholder, only the first
in forward-scan order is resolved (or dropped on failure); every later
placeholder record is left unmodified and enters dedup with the literal
identity `"HEAD"` (both record kinds). -/
theorem claim_C9 (pre post t : List CommitRecord) (r : CommitRecord) (ci : CommitInner)
    (realSha : String) (preT postT : List TddEntry) (e0 : TddEntry)
    (hpre : ∀ c ∈ pre, c.sha ≠ some "HEAD") (hr : r.sha = some "HEAD")
    (hc : r.commit = some ci)
    (hpreT : ∀ x ∈ preT, x.commitId ≠ some "HEAD") (he : e0.commitId = some "HEAD") :
    resolveHeadCommits (some realSha) (pre ++ r :: post) =
      (pre ++
        (⟨some realSha, some ⟨ci.date, rewrittenUrl ci.url realSha⟩⟩ : CommitRecord)
        :: post, false) ∧
    resolveHeadCommits none (pre ++ r :: post) = (pre ++ post, true) ∧
    (∀ s' : List CommitRecord, ∀ c ∈ s', c.sha = some "HEAD" → c ∉ t →
      (c ∈ (dedupCommits s' t).1 ↔ some "HEAD" ∉ t.map (fun x => x.sha))) ∧
    resolveHeadTdd (some realSha) (preT ++ e0 :: postT) =
      (preT ++ { e0 with commitId := some realSha } :: postT, false) ∧
    resolveHeadTdd none (preT ++ e0 :: postT) = (preT ++ postT, true) ∧
    (∀ x : TddEntry, x.commitId = some "HEAD" → tddUniqueId x = "HEAD") := by
  refine ⟨resolveHeadCommits_success hpre hr hc, resolveHeadCommits_fail hpre hr,
    ?_, resolveHeadTdd_success hpreT he, resolveHeadTdd_fail hpreT he, ?_⟩
  · intro s' c hcs hsha hnt
    rw [dedupCommits_eq]
    show c ∈ t ++ s'.filter (commitAppendGuard (t.map (fun x => x.sha))) ↔ _
    rw [List.mem_append, List.mem_filter]
    constructor
    · rintro (h1 | ⟨_, hguard⟩)
      · exact (hnt h1).elim
      · rw [commitAppendGuard_eq_true, hsha] at hguard
        intro hin
        have := contains_iff.mpr hin
        rw [hguard.2] at this
        exact Bool.noConfusion this
    · intro hnot
      refine Or.inr ⟨hcs, ?_⟩
      rw [commitAppendGuard_eq_true, hsha]
      refine ⟨by decide, ?_⟩
      rw [Bool.eq_false_iff]
      intro hct
      exact hnot (contains_iff.mp hct)
  · intro x hx
    unfold tddUniqueId
    rw [hx]
    rfl

/-- Witness instantiating C9 with two placeholder records in each source. -/
theorem claim_C9_witness :
    resolveHeadCommits (some "r")
        ([] ++ (⟨some "HEAD", some ⟨"d1", none⟩⟩ : CommitRecord)
          :: [⟨some "HEAD", some ⟨"d2", none⟩⟩]) =
      ([] ++
        (⟨some "r", some ⟨"d1", rewrittenUrl none "r"⟩⟩ : CommitRecord)
        :: [⟨some "HEAD", some ⟨"d2", none⟩⟩], false) ∧
    resolveHeadCommits none
        ([] ++ (⟨some "HEAD", some ⟨"d1", none⟩⟩ : CommitRecord)
          :: [⟨some "HEAD", some ⟨"d2", none⟩⟩]) =
      ([] ++ [⟨some "HEAD", some ⟨"d2", none⟩⟩], true) ∧
    ((⟨some "HEAD", some ⟨"d2", none⟩⟩ : CommitRecord) ∈
        (dedupCommits [⟨some "HEAD", some ⟨"d2", none⟩⟩] []).1 ↔
      some "HEAD" ∉ ([] : List CommitRecord).map (fun x => x.sha)) ∧
    tddUniqueId (⟨some "HEAD", none, none, none⟩ : TddEntry) = "HEAD" :=
  let h := claim_C9 [] [⟨some "HEAD", some ⟨"d2", none⟩⟩] []
    ⟨some "HEAD", some ⟨"d1", none⟩⟩ ⟨"d1", none⟩ "r" [] []
    ⟨some "HEAD", none, none, none⟩ (by simp) rfl rfl (by simp) rfl
  ⟨h.1, h.2.1,
    h.2.2.1 [⟨some "HEAD", some ⟨"d2", none⟩⟩] ⟨some "HEAD", some ⟨"d2", none⟩⟩
      (by simp) rfl (by simp),
    h.2.2.2.2.2 ⟨some "HEAD", none, none, none⟩ rfl⟩

/-- C5: with exactly one `"HEAD"` record in the source array, resolution
failure drops exactly that record — the merge completes as if the record were
absent, except that the failure is reported — and no `"HEAD"`-identified
record reaches the output (both record kinds). -/
theorem claim_C5 (pd : String → Int) (pre post t : List CommitRecord) (r : CommitRecord)
    (preT postT tT : List TddEntry) (e0 : TddEntry)
    (hpre : ∀ c ∈ pre, c.sha ≠ some "HEAD") (hpost : ∀ c ∈ post, c.sha ≠ some "HEAD")
    (hr : r.sha = some "HEAD") (ht : ∀ c ∈ t, c.sha ≠ some "HEAD")
    (hpreT : ∀ x ∈ preT, x.commitId ≠ some "HEAD")
    (hpostT : ∀ x ∈ postT, x.commitId ≠ some "HEAD")
    (he : e0.commitId = some "HEAD") :
    commitMergePhase pd none (pre ++ r :: post) t =
      (commitMergePhase pd none (pre ++ post) t).map
        (fun res => ⟨res.merged, res.newCount, true⟩) ∧
    (∀ res, commitMergePhase pd none (pre ++ r :: post) t = .ok res →
      ∀ c ∈ res.merged, c.sha ≠ some "HEAD") ∧
    tddMergePhase none (preT ++ e0 :: postT) tT =
      ⟨(tddMergePhase none (preT ++ postT) tT).merged,
        (tddMergePhase none (preT ++ postT) tT).newCount, true⟩ := by
  have hno : ∀ c ∈ pre ++ post, c.sha ≠ some "HEAD" := by
    intro c hc
    rcases List.mem_append.mp hc with h1 | h2
    · exact hpre c h1
    · exact hpost c h2
  refine ⟨?_, ?_, ?_⟩
  · unfold commitMergePhase
    simp only [resolveHeadCommits_fail hpre hr, resolveHeadCommits_no_head hno]
    cases hs : sortCommits pd (dedupCommits (pre ++ post) t).1 <;> rfl
  · intro res hok c hcm
    have hperm := (commitMergePhase_ok hok).1
    rw [resolveHeadCommits_fail hpre hr] at hperm
    rw [hperm.mem_iff, List.mem_append] at hcm
    rcases hcm with h1 | h2
    · exact ht c h1
    · exact hno c (List.mem_of_mem_filter h2)
  · rw [tddMergePhase_eq, tddMergePhase_eq, resolveHeadTdd_fail hpreT he,
      resolveHeadTdd_no_head (fun x hx => by
        rcases List.mem_append.mp hx with h1 | h2
        · exact hpreT x h1
        · exact hpostT x h2)]

/-- Witness instantiating C5 at a concrete input with a failing resolution. -/
theorem claim_C5_witness :
    commitMergePhase (fun _ => 0) none
        ([] ++ (⟨some "HEAD", some ⟨"d", none⟩⟩ : CommitRecord) :: []) [] =
      (commitMergePhase (fun _ => 0) none ([] ++ []) []).map
        (fun res => ⟨res.merged, res.newCount, true⟩) ∧
    (∀ c ∈ (CommitMergeResult.mk [] 0 true).merged, c.sha ≠ some "HEAD") ∧
    tddMergePhase none ([] ++ (⟨some "HEAD", none, none, none⟩ : TddEntry) :: []) [] =
      ⟨(tddMergePhase none ([] ++ []) []).merged,
        (tddMergePhase none ([] ++ []) []).newCount, true⟩ :=
  let h := claim_C5 (fun _ => 0) [] [] [] ⟨some "HEAD", some ⟨"d", none⟩⟩
    [] [] [] ⟨some "HEAD", none, none, none⟩
    (by simp) (by simp) rfl (by simp) (by simp) (by simp) rfl
  ⟨h.1, h.2.1 ⟨[], 0, true⟩ (by rfl), h.2.2⟩

/-- C4 fails as stated for the TDD ordering key: `||` treats a present-but-
zero `commitTimestamp` as falsy, so the code sorts such an entry by its
`timestamp` instead; at this input the written TDD array is not
nondecreasing in the spec's key (`commitTimestamp` whenever present, else
`timestamp`). -/
theorem claim_C4_counterexample :
    (tddMergePhase none []
        [⟨none, some 100, some 0, none⟩, ⟨none, some 50, some 50, none⟩]).merged =
      [⟨none, some 50, some 50, none⟩, ⟨none, some 100, some 0, none⟩] ∧
    ¬ List.Pairwise (fun a b => (specTddOrderKey a).getD 0 ≤ (specTddOrderKey b).getD 0)
      (tddMergePhase none []
        [⟨none, some 100, some 0, none⟩, ⟨none, some 50, some 50, none⟩]).merged := by
  constructor
  · rfl
  · decide

/-- C4 amended: after every merge the written array is sorted nondecreasing
by the code's ordering key — the parsed `commit.date` for commit records,
and `commitTimestamp` when truthy (present and nonzero), else `timestamp`,
for TDD entries — whenever the comparator values are numbers. -/
theorem claim_C4_amended {pd : String → Int} {resolve resolveT : Option String}
    {s t : List CommitRecord} {res : CommitMergeResult} {st tt : List TddEntry}
    (hok : commitMergePhase pd resolve s t = .ok res)
    (hst : st.all (fun e => (tddSortVal e).isSome) = true)
    (htt : tt.all (fun e => (tddSortVal e).isSome) = true) :
    List.Pairwise (commitLe pd) res.merged ∧
    List.Pairwise tddLe (tddMergePhase resolveT st tt).merged := by
  refine ⟨(commitMergePhase_ok hok).2.1, ?_⟩
  rw [tddMergePhase_eq]
  apply sortTdd_sorted_of_all
  rw [List.all_eq_true]
  intro e he
  rcases List.mem_append.mp he with h1 | h2
  · exact List.all_eq_true.mp htt e h1
  · exact List.all_eq_true.mp (resolveHeadTdd_sortVal_all hst) e (List.mem_of_mem_filter h2)

/-- Witness instantiating the amended C4 at a concrete input. -/
theorem claim_C4_amended_witness :
    List.Pairwise (commitLe (fun _ => 0))
        (CommitMergeResult.mk [⟨some "a", some ⟨"d", none⟩⟩] 1 false).merged ∧
      List.Pairwise tddLe
        (tddMergePhase none [⟨some "c", some 5, none, none⟩] []).merged :=
  @claim_C4_amended (fun _ => 0) none none [⟨some "a", some ⟨"d", none⟩⟩] []
    ⟨[⟨some "a", some ⟨"d", none⟩⟩], 1, false⟩ [⟨some "c", some 5, none, none⟩] []
    (by rfl) (by rfl) (by rfl)

/-- C1 fails as stated: the already-present-identity set is never updated
after an append (lines 71–76 push without `targetCommitShas.add`), so two
source records with the same derived identity are both appended and the
merged output contains two records with the same derived identity. -/
theorem claim_C1_counterexample :
    commitMergePhase (fun _ => 0) none
        [⟨some "a", some ⟨"d1", none⟩⟩, ⟨some "a", some ⟨"d2", none⟩⟩] [] =
      .ok ⟨[⟨some "a", some ⟨"d1", none⟩⟩, ⟨some "a", some ⟨"d2", none⟩⟩], 2, false⟩ ∧
    ¬ (commitIds [(⟨some "a", some ⟨"d1", none⟩⟩ : CommitRecord),
        ⟨some "a", some ⟨"d2", none⟩⟩]).Nodup := by
  constructor
  · rfl
  · decide

/-- C1 amended: the already-present set is built once from the target and
never updated: a source record is appended iff its derived identity is
truthy (commit kind) and not among the target's original identities, so
duplicates within the source array are each appended; the
no-duplicate-identity invariant holds whenever the source's and target's own
identity lists are duplicate-free (both record kinds). -/
theorem claim_C1_amended (s t : List CommitRecord) (sT tT : List TddEntry)
    (hns : (commitIds s).Nodup) (hnt : (commitIds t).Nodup)
    (hnsT : (tddIds sT).Nodup) (hntT : (tddIds tT).Nodup) :
    (dedupCommits s t).1 = t ++ s.filter (commitAppendGuard (t.map (fun c => c.sha))) ∧
    (dedupTdd sT tT).1 = tT ++ sT.filter
      (fun e => !((tT.map tddUniqueId).contains (tddUniqueId e))) ∧
    (commitIds (dedupCommits s t).1).Nodup ∧
    (tddIds (dedupTdd sT tT).1).Nodup := by
  refine ⟨by rw [dedupCommits_eq], by rw [dedupTdd_eq], ?_, ?_⟩
  · rw [dedupCommits_eq]
    exact nodup_commitIds_dedup hns hnt
  · rw [dedupTdd_eq]
    exact nodup_tddIds_dedup hnsT hntT

/-- Witness instantiating the amended C1 at concrete inputs. -/
theorem claim_C1_amended_witness :
    (dedupCommits [⟨some "a", some ⟨"d1", none⟩⟩] [⟨some "b", some ⟨"d0", none⟩⟩]).1 =
        ([⟨some "b", some ⟨"d0", none⟩⟩] : List CommitRecord) ++
          ([⟨some "a", some ⟨"d1", none⟩⟩] : List CommitRecord).filter
            (commitAppendGuard (([⟨some "b", some ⟨"d0", none⟩⟩]
              : List CommitRecord).map (fun c => c.sha))) ∧
      (dedupTdd [⟨some "x", some 1, none, none⟩] [⟨some "y", some 2, none, none⟩]).1 =
        ([⟨some "y", some 2, none, none⟩] : List TddEntry) ++
          ([⟨some "x", some 1, none, none⟩] : List TddEntry).filter
            (fun e => !((([⟨some "y", some 2, none, none⟩]
              : List TddEntry).map tddUniqueId).contains (tddUniqueId e))) ∧
      (commitIds (dedupCommits [⟨some "a", some ⟨"d1", none⟩⟩]
        [⟨some "b", some ⟨"d0", none⟩⟩]).1).Nodup ∧
      (tddIds (dedupTdd [⟨some "x", some 1, none, none⟩]
        [⟨some "y", some 2, none, none⟩]).1).Nodup :=
  claim_C1_amended [⟨some "a", some ⟨"d1", none⟩⟩] [⟨some "b", some ⟨"d0", none⟩⟩]
    [⟨some "x", some 1, none, none⟩] [⟨some "y", some 2, none, none⟩]
    (by decide) (by decide) (by decide) (by decide)

theorem commitIds_append (l₁ l₂ : List CommitRecord) :
    commitIds (l₁ ++ l₂) = commitIds l₁ ++ commitIds l₂ :=
  List.filterMap_append l₁ l₂ _

theorem tddIds_append (l₁ l₂ : List TddEntry) :
    tddIds (l₁ ++ l₂) = tddIds l₁ ++ tddIds l₂ :=
  List.map_append _ l₁ l₂

theorem mem_tddIds {l : List TddEntry} {a : String} :
    a ∈ tddIds l ↔ ∃ e ∈ l, tddUniqueId e = a := by
  unfold tddIds
  rw [List.mem_map]

/-- C2 fails as stated: the two record-kind merges are not individually
wrapped.  With a target commit record lacking the `commit` field, the commit
sort comparator throws, the exception propagates out of `mergeHistories`, and
the TDD-log merge never runs (its result is never produced) even though the
TDD inputs are well-formed. -/
theorem claim_C2_counterexample :
    mergeHistoriesRun (fun _ => 0) none none []
        [⟨some "a", none⟩, ⟨some "b", some ⟨"d", none⟩⟩]
        [⟨some "c", some 1, none, none⟩] [] =
      ⟨none, none⟩ := by
  rfl

/-- C2 amended: reads, revision resolution and writes catch their own errors,
but the merges are not individually wrapped: the TDD-log merge runs exactly
when the commit-history merge does not throw — in particular whenever every
source and target commit record carries a `commit` object. -/
theorem claim_C2_amended {pd : String → Int} {resolveC resolveT : Option String}
    {sc tc : List CommitRecord} {st tt : List TddEntry}
    (hs : sc.all (fun c => c.commit.isSome) = true)
    (ht : tc.all (fun c => c.commit.isSome) = true) :
    (mergeHistoriesRun pd resolveC resolveT sc tc st tt).tddResult =
      some (tddMergePhase resolveT st tt) := by
  rw [mergeHistoriesRun_tdd (commitMergePhase_isOk hs ht)]

/-- Witness instantiating the amended C2 at a concrete input. -/
theorem claim_C2_amended_witness :
    (mergeHistoriesRun (fun _ => 0) none none [] [⟨some "b", some ⟨"d", none⟩⟩]
        [⟨some "c", some 1, none, none⟩] []).tddResult =
      some (tddMergePhase none [⟨some "c", some 1, none, none⟩] []) :=
  @claim_C2_amended (fun _ => 0) none none [] [⟨some "b", some ⟨"d", none⟩⟩]
    [⟨some "c", some 1, none, none⟩] [] (by rfl) (by rfl)

/-- C6 fails as stated: a source array that contains an identity already in
the target and also an internal duplicate produces an output whose identity
list is not duplicate-free ("t" is shared with the target, and "b" appears
twice), so the output is not the duplicate-free union of identities. -/
theorem claim_C6_counterexample :
    commitMergePhase (fun _ => 0) none
        [⟨some "b", some ⟨"e1", none⟩⟩, ⟨some "b", some ⟨"e2", none⟩⟩,
          ⟨some "t", some ⟨"e3", none⟩⟩]
        [⟨some "t", some ⟨"e0", none⟩⟩] =
      .ok ⟨[⟨some "t", some ⟨"e0", none⟩⟩, ⟨some "b", some ⟨"e1", none⟩⟩,
        ⟨some "b", some ⟨"e2", none⟩⟩], 2, false⟩ ∧
    ¬ (commitIds [(⟨some "t", some ⟨"e0", none⟩⟩ : CommitRecord),
        ⟨some "b", some ⟨"e1", none⟩⟩, ⟨some "b", some ⟨"e2", none⟩⟩]).Nodup := by
  constructor
  · rfl
  · decide

/-- Membership in the identity list of the commit dedup union: exactly the
identities of the source and of the target. -/
theorem mem_commitIds_dedup {s t : List CommitRecord} {a : String} :
    a ∈ commitIds (t ++ s.filter (commitAppendGuard (t.map (fun c => c.sha)))) ↔
      a ∈ commitIds s ∨ a ∈ commitIds t := by
  rw [commitIds_append, List.mem_append]
  constructor
  · rintro (h1 | h2)
    · exact Or.inr h1
    · rw [mem_commitIds] at h2
      obtain ⟨c, hc, hg, hsha⟩ := h2
      exact Or.inl (mem_commitIds.mpr ⟨c, List.mem_of_mem_filter hc, hg, hsha⟩)
  · rintro (h1 | h2)
    · rw [mem_commitIds] at h1
      obtain ⟨c, hc, hg, hsha⟩ := h1
      have hga : jsTruthyStr (some a) = true := by
        rw [← hsha]
        exact hg
      by_cases hcase : some a ∈ t.map (fun x => x.sha)
      · rw [List.mem_map] at hcase
        obtain ⟨c', hct, hsha'⟩ := hcase
        refine Or.inl (mem_commitIds.mpr ⟨c', hct, ?_, hsha'⟩)
        rw [hsha']
        exact hga
      · refine Or.inr (mem_commitIds.mpr ⟨c, List.mem_filter.mpr ⟨hc, ?_⟩, hg, hsha⟩)
        rw [commitAppendGuard_eq_true]
        refine ⟨hg, ?_⟩
        rw [hsha, Bool.eq_false_iff]
        intro hcon
        exact hcase (contains_iff.mp hcon)
    · exact Or.inl h2

/-- Membership in the identity list of the TDD dedup union: exactly the
identities of the source and of the target. -/
theorem mem_tddIds_dedup {s t : List TddEntry} {a : String} :
    a ∈ tddIds (t ++ s.filter
        (fun e => !((t.map tddUniqueId).contains (tddUniqueId e)))) ↔
      a ∈ tddIds s ∨ a ∈ tddIds t := by
  rw [tddIds_append, List.mem_append]
  constructor
  · rintro (h1 | h2)
    · exact Or.inr h1
    · rw [mem_tddIds] at h2
      obtain ⟨e, he, hid⟩ := h2
      exact Or.inl (mem_tddIds.mpr ⟨e, List.mem_of_mem_filter he, hid⟩)
  · rintro (h1 | h2)
    · rw [mem_tddIds] at h1
      obtain ⟨e, he, hid⟩ := h1
      by_cases hcase : a ∈ tddIds t
      · exact Or.inl hcase
      · refine Or.inr (mem_tddIds.mpr ⟨e, List.mem_filter.mpr ⟨he, ?_⟩, hid⟩)
        rw [Bool.not_eq_true', Bool.eq_false_iff]
        intro hcon
        have hcmem := contains_iff.mp hcon
        rw [hid] at hcmem
        exact hcase hcmem
    · exact Or.inl h2

/-- C6 amended: provided the source's and target's own identity lists are
duplicate-free (and the source carries no unresolved placeholder), a merge
whose source shares identities with the target realizes the identity union:
the output's identities are exactly those of source and target with no
duplicates, every target record is retained, and a distinct source copy of a
shared identity is discarded (both record kinds). -/
theorem claim_C6_amended (pd : String → Int) (resolve resolveT : Option String)
    (s t : List CommitRecord) (res : CommitMergeResult) (sT tT : List TddEntry)
    (hok : commitMergePhase pd resolve s t = .ok res)
    (hnohead : ∀ c ∈ s, c.sha ≠ some "HEAD")
    (hns : (commitIds s).Nodup) (hnt : (commitIds t).Nodup)
    (hnoheadT : ∀ e ∈ sT, e.commitId ≠ some "HEAD")
    (hnsT : (tddIds sT).Nodup) (hntT : (tddIds tT).Nodup) :
    (∀ a, a ∈ commitIds res.merged ↔ a ∈ commitIds s ∨ a ∈ commitIds t) ∧
    (commitIds res.merged).Nodup ∧
    (∀ c ∈ t, c ∈ res.merged) ∧
    (∀ c ∈ s, jsTruthyStr c.sha = true → c.sha ∈ t.map (fun x => x.sha) →
      c ∉ t → c ∉ res.merged) ∧
    (∀ a, a ∈ tddIds (tddMergePhase resolveT sT tT).merged ↔
      a ∈ tddIds sT ∨ a ∈ tddIds tT) ∧
    (tddIds (tddMergePhase resolveT sT tT).merged).Nodup ∧
    (∀ e ∈ tT, e ∈ (tddMergePhase resolveT sT tT).merged) ∧
    (∀ e ∈ sT, tddUniqueId e ∈ tddIds tT → e ∉ tT →
      e ∉ (tddMergePhase resolveT sT tT).merged) := by
  have hperm := (commitMergePhase_ok hok).1
  rw [resolveHeadCommits_no_head hnohead] at hperm
  have hidperm : (commitIds res.merged).Perm
      (commitIds (t ++ s.filter (commitAppendGuard (t.map (fun c => c.sha))))) :=
    hperm.filterMap _
  have htperm := tddMergePhase_merged_perm resolveT sT tT
  rw [resolveHeadTdd_no_head hnoheadT] at htperm
  have htidperm : (tddIds (tddMergePhase resolveT sT tT).merged).Perm
      (tddIds (tT ++ sT.filter
        (fun e => !((tT.map tddUniqueId).contains (tddUniqueId e))))) :=
    htperm.map _
  refine ⟨?_, ?_, ?_, ?_, ?_, ?_, ?_, ?_⟩
  · intro a
    rw [hidperm.mem_iff, mem_commitIds_dedup]
  · exact hidperm.nodup_iff.mpr (nodup_commitIds_dedup hns hnt)
  · intro c hct
    exact hperm.mem_iff.mpr (List.mem_append.mpr (Or.inl hct))
  · intro c hcs htr hshain hcnotint hmem
    rw [hperm.mem_iff, List.mem_append] at hmem
    rcases hmem with h1 | h2
    · exact hcnotint h1
    · have hg := (List.mem_filter.mp h2).2
      rw [commitAppendGuard_eq_true] at hg
      have hcon := contains_iff.mpr hshain
      rw [hg.2] at hcon
      exact Bool.noConfusion hcon
  · intro a
    rw [htidperm.mem_iff, mem_tddIds_dedup]
  · exact htidperm.nodup_iff.mpr (nodup_tddIds_dedup hnsT hntT)
  · intro e het
    exact htperm.mem_iff.mpr (List.mem_append.mpr (Or.inl het))
  · intro e hes hidin henotint hmem
    rw [htperm.mem_iff, List.mem_append] at hmem
    rcases hmem with h1 | h2
    · exact henotint h1
    · have hg := (List.mem_filter.mp h2).2
      rw [Bool.not_eq_true'] at hg
      have hcon : (tT.map tddUniqueId).contains (tddUniqueId e) = true :=
        contains_iff.mpr hidin
      rw [hg] at hcon
      exact Bool.noConfusion hcon

/-- Witness instantiating the amended C6 at concrete inputs with a shared
identity in each record kind. -/
theorem claim_C6_amended_witness :
    (commitIds (CommitMergeResult.mk [⟨some "t", some ⟨"d0", none⟩⟩,
        ⟨some "a", some ⟨"d1", none⟩⟩] 1 false).merged).Nodup ∧
    (⟨some "t", some ⟨"d0", none⟩⟩ : CommitRecord) ∈
      (CommitMergeResult.mk [⟨some "t", some ⟨"d0", none⟩⟩,
        ⟨some "a", some ⟨"d1", none⟩⟩] 1 false).merged ∧
    (⟨some "t", some ⟨"d2", none⟩⟩ : CommitRecord) ∉
      (CommitMergeResult.mk [⟨some "t", some ⟨"d0", none⟩⟩,
        ⟨some "a", some ⟨"d1", none⟩⟩] 1 false).merged ∧
    (tddIds (tddMergePhase none [⟨some "x", some 1, none, none⟩,
        ⟨some "z", some 2, none, none⟩] [⟨some "z", some 3, none, none⟩]).merged).Nodup :=
  let h := claim_C6_amended (fun _ => 0) none none
    [⟨some "a", some ⟨"d1", none⟩⟩, ⟨some "t", some ⟨"d2", none⟩⟩]
    [⟨some "t", some ⟨"d0", none⟩⟩]
    ⟨[⟨some "t", some ⟨"d0", none⟩⟩, ⟨some "a", some ⟨"d1", none⟩⟩], 1, false⟩
    [⟨some "x", some 1, none, none⟩, ⟨some "z", some 2, none, none⟩]
    [⟨some "z", some 3, none, none⟩]
    (by rfl) (by decide) (by decide) (by decide) (by decide) (by decide) (by decide)
  ⟨h.2.1,
    h.2.2.1 ⟨some "t", some ⟨"d0", none⟩⟩ (by decide),
    h.2.2.2.1 ⟨some "t", some ⟨"d2", none⟩⟩ (by decide) (by decide) (by decide)
      (by decide),
    h.2.2.2.2.2.1⟩
